import Mathlib

/-!
# Verification of `src/hooks/usePortsMetadata.js` (Nord Docs)

A shallow embedding of the hook that fetches GitHub repository metadata and
merges it with the static port-project metadata.  JavaScript objects are
modelled as insertion-ordered binding lists over a small value universe;
faulting operations (property access on `undefined`, calling `replace` on a
non-string) are modelled in the `Except JsFault` monad.

The GraphQL plumbing (`useStaticQuery`, `gatsby-source-graphql`) resolves the
fixed query before the hook body runs; the hook body is a pure function of
the resolved `search.edges` list and of the static `projectPorts` list, so it
is embedded as such a function.  `ROUTE_PORTS` (imported from
`config/routes/mappings`, outside the embedded sources) is threaded through
as an ordinary `String` parameter; no theorem depends on its concrete value.
-/

/-- JavaScript values as they occur in this hook: `undefined`, numbers,
strings, plain objects and arrays.  (`null` does not occur in the hook or in
the resolved query shape and is not modelled.) -/
inductive JsValue where
  | undef
  | num (n : Int)
  | str (s : String)
  | obj (fields : List (String × JsValue))
  | arr (elems : List JsValue)

/-- A JavaScript object: an insertion-ordered list of field bindings.  A
later binding of a key overrides an earlier one, exactly as a later
object-spread or literal entry does, so lookups read the last binding.
(Enumeration order of keys is not relied on by any claim.) -/
abbrev Obj := List (String × JsValue)

/-- Property lookup on an object: the last binding of the key, if any. -/
def objGet? (o : Obj) (k : String) : Option JsValue :=
  match o with
  | [] => none
  | kv :: rest =>
    match objGet? rest k with
    | some v => some v
    | none => if kv.1 = k then some kv.2 else none

/-- Property access on an object: a missing property reads as `undefined`. -/
def objGetD (o : Obj) (k : String) : JsValue :=
  (objGet? o k).getD JsValue.undef

/-- Left-biased choice on optional field values: the overlay semantics of
listing `a` after `b` in an object literal (`a` wins when present). -/
def oOr (a b : Option JsValue) : Option JsValue :=
  match a with
  | some v => some v
  | none => b

/-- `as` is a prefix of `bs` (character lists). -/
def charsIsPfx : List Char → List Char → Bool
  | [], _ => true
  | _ :: _, [] => false
  | a :: as, b :: bs => a == b && charsIsPfx as bs

/-- Strips the `nord-` prefix of port project names:
`name => name.replace(/^(nord-)/, "")`.  The regex is anchored at the start
of the string, so exactly one leading occurrence of the literal `nord-`
(5 characters) is removed, and a non-leading occurrence is left alone.
Implemented over character lists so that concrete instances reduce. -/
def stripPrefix (name : String) : String :=
  if charsIsPfx "nord-".data name.data then String.mk (name.data.drop 5) else name

/-- The faults the hook body can raise: a `TypeError` from reading a
property of `undefined`, and a `TypeError` from calling a method that the
receiver does not have (`replace` on a non-string). -/
inductive JsFault where
  | undefinedDeref (field : String)
  | notAFunction (method : String)
deriving DecidableEq

/-- Property access `v[k]` / `v.k` as an effectful operation: reading from
`undefined` throws a `TypeError`; reading a missing key of an object (or any
key of a boxed primitive or of an array, none of which carries the keys read
here) yields `undefined`. -/
def jsMember : JsValue → String → Except JsFault JsValue
  | .undef, k => .error (.undefinedDeref k)
  | .obj o, k => .ok (objGetD o k)
  | _, _ => .ok JsValue.undef

/-- Total property access for receivers already known not to be
`undefined`; agrees with `jsMember` on every non-`undefined` receiver. -/
def memberD : JsValue → String → JsValue
  | .obj o, k => objGetD o k
  | _, _ => JsValue.undef

/-- Array indexing `v[i]` (only `v[0]` occurs in the hook): indexing
`undefined` throws; an array yields the element or `undefined` past the end;
an object yields the string-keyed property; a string yields the character. -/
def jsIndex : JsValue → Nat → Except JsFault JsValue
  | .undef, i => .error (.undefinedDeref (toString i))
  | .arr l, i => .ok (l.getD i .undef)
  | .obj o, i => .ok (objGetD o (toString i))
  | .str s, i =>
    .ok (match s.data.drop i with
      | c :: _ => .str (String.mk [c])
      | [] => .undef)
  | .num _, _ => .ok JsValue.undef

/-- JavaScript strict equality `===` on the values compared by the lookup
(`ghRepo.node[idProperty] === port[idProperty]`).  Primitives compare by
value; objects and arrays compare by reference, and the two operands here
always come from distinct sources (a freshly parsed query result versus the
static bundle), so a non-primitive comparison is `false`. -/
def jsStrictEq : JsValue → JsValue → Bool
  | .undef, .undef => true
  | .num a, .num b => a == b
  | .str a, .str b => a == b
  | _, _ => false

/-- JavaScript `<` on the values reaching the sort comparator.  Two numbers
compare numerically, two strings lexicographically; every other combination
that can occur here involves `undefined`, whose numeric coercion is `NaN`,
making the comparison `false`.  (Cross-type numeric coercion of strings is
not modelled; no such pair reaches the comparator.) -/
def jsLessThan : JsValue → JsValue → Bool
  | .num a, .num b => decide (a < b)
  | .str a, .str b => decide (a < b)
  | _, _ => false

/-- String coercion for template literals.  Only the repository `url` (a
string under the resolved query shape) is interpolated by the hook. -/
def jsToString : JsValue → String
  | .undef => "undefined"
  | .num n => toString n
  | .str s => s
  | .obj _ => "[object Object]"
  | .arr _ => ""

/-- `Array.prototype.find` with an effectful predicate: the predicate runs
left to right and its first thrown fault propagates. -/
def findE {α : Type} (p : α → Except JsFault Bool) : List α → Except JsFault (Option α)
  | [] => .ok none
  | x :: xs => do
    let b ← p x
    if b then pure (some x) else findE p xs

/-- `Array.prototype.map` with an effectful body: elements are processed
left to right and the first thrown fault propagates. -/
def mapME {α β : Type} (f : α → Except JsFault β) : List α → Except JsFault (List β)
  | [] => .ok []
  | x :: xs => do
    let y ← f x
    let ys ← mapME f xs
    pure (y :: ys)

/-- The rest pattern of `const { releases, stargazers, url, ...ghRepoData }
= gh.node`: the node's own fields without those three keys.  (The
`idProperty` key is *not* among the removed keys.) -/
def passThrough (node : Obj) : Obj :=
  node.filter (fun kv => !(kv.1 == "releases" || kv.1 == "stargazers" || kv.1 == "url"))

/-- The derived engagement field:
`stargazers: { count: stargazers.totalCount, url: ` the repository URL with
`/stargazers` appended `}`. -/
def derivedStargazers (totalCount urlV : JsValue) : JsValue :=
  .obj [("count", totalCount), ("url", .str (jsToString urlV ++ "/stargazers"))]

/-- The four derived fields of the merged record, in literal order:
`gitHubRepositoryUrl`, `stargazers`, `releaseLatest`, `url`. -/
def derivedFields (routePorts : String) (urlV totalCount releaseLatest : JsValue)
    (nameS : String) : Obj :=
  [("gitHubRepositoryUrl", urlV),
   ("stargazers", derivedStargazers totalCount urlV),
   ("releaseLatest", releaseLatest),
   ("url", .str (routePorts ++ "/" ++ stripPrefix nameS))]

/-- The lookup
`gitHubApi.github.search.edges.find(ghRepo => ghRepo.node[idProperty] === port[idProperty])`.
Each element of `edges` is an edge object carrying its record under `node`. -/
def findGitHubEdge (idProperty : String) (edges : List Obj) (port : Obj) :
    Except JsFault (Option Obj) :=
  findE (fun ghRepo => do
    let idv ← jsMember (objGetD ghRepo "node") idProperty
    pure (jsStrictEq idv (objGetD port idProperty))) edges

/-- The per-port merge given the value of `gh.node`: destructure
`const { releases, stargazers, url, ...ghRepoData } = gh.node` (destructuring
`undefined` throws, naming the first destructured key; a primitive is boxed,
all its reads yielding `undefined` and its rest set being empty), then build
the merged record `{derived fields, ...ghRepoData, ...port}`.  The fields of
the object literal are evaluated top to bottom, so faults surface in that
order: `stargazers.totalCount`, then `releases.edges[0]?.node`, then
`stripPrefix(gh.node.name)` (a `replace` call on the name). -/
def mergeGhNode (routePorts : String) (node : JsValue) (port : Obj) : Except JsFault Obj :=
  match node with
  | .undef => Except.error (.undefinedDeref "releases")
  | nodeV => do
    let releases := memberD nodeV "releases"
    let stargazers := memberD nodeV "stargazers"
    let urlV := memberD nodeV "url"
    let ghRepoData : Obj := match nodeV with | .obj o => passThrough o | _ => []
    let totalCount ← jsMember stargazers "totalCount"
    let relEdges ← jsMember releases "edges"
    let e0 ← jsIndex relEdges 0
    let releaseLatest ← (match e0 with
      | .undef => Except.ok JsValue.undef
      | v => jsMember v "node")
    let nameS ← (match memberD nodeV "name" with
      | .str s => Except.ok s
      | .undef => Except.error (JsFault.undefinedDeref "replace")
      | _ => Except.error (JsFault.notAFunction "replace"))
    Except.ok (derivedFields routePorts urlV totalCount releaseLatest nameS
      ++ ghRepoData ++ port)

/-- The body of `projectPorts.map(port => ...)`: look up the port's GitHub
edge, then merge against `gh.node`.  A failed lookup makes `gh` `undefined`,
and the subsequent `gh.node` access throws. -/
def mergePort (routePorts idProperty : String) (edges : List Obj) (port : Obj) :
    Except JsFault Obj := do
  let gh? ← findGitHubEdge idProperty edges port
  match gh? with
  | none => Except.error (.undefinedDeref "node")
  | some gh => mergeGhNode routePorts (objGetD gh "node") port

/-- The sort comparator `(md1, md2) => md1.stargazers.count < md2.stargazers.count`,
composed with the engine's `ToNumber` coercion of its result
(`true ↦ 1`, `false ↦ 0`).  The property reads can throw when a record's
`stargazers` field is `undefined`. -/
def stargazerLess (md1 md2 : Obj) : Except JsFault Int := do
  let c1 ← jsMember (objGetD md1 "stargazers") "count"
  let c2 ← jsMember (objGetD md2 "stargazers") "count"
  pure (if jsLessThan c1 c2 then 1 else 0)

/-!
## `Array.prototype.sort`

ECMA-262 leaves the sort order implementation-defined whenever the
comparator is not consistent, which this boolean comparator is not (it never
returns a negative number).  The site is built by Node and rendered by
V8-based engines, whose sort is TimSort: the array is decomposed into
natural runs, short runs are extended by binary insertion, and runs are
merged pairwise.  Every decision point asks whether a comparator result is
negative: run boundaries and descending runs are recognised by a negative
result, a binary-insertion probe moves left on a negative result, and a
merge takes from the right run on a negative result.  The embedding below
follows that structure (galloping, an acceleration of the merge inner loop,
is not modelled; with the comparator above no merge of two runs ever
happens, because a comparator that never returns a negative value yields a
single run covering the whole array). -/

/-- Length of the maximal extension of an ascending run: starting from
previous element `prev`, keep extending while the comparator result for
(next, previous) is not negative. -/
def ascRunLen {α : Type} (cmp : α → α → Except JsFault Int) : α → List α → Except JsFault Nat
  | _, [] => Except.ok 0
  | prev, x :: xs => do
    let o ← cmp x prev
    if o < 0 then pure 0
    else do
      let n ← ascRunLen cmp x xs
      pure (n + 1)

/-- Length of the maximal extension of a strictly descending run. -/
def descRunLen {α : Type} (cmp : α → α → Except JsFault Int) : α → List α → Except JsFault Nat
  | _, [] => Except.ok 0
  | prev, x :: xs => do
    let o ← cmp x prev
    if o < 0 then do
      let n ← descRunLen cmp x xs
      pure (n + 1)
    else pure 0

/-- TimSort's `CountAndMakeRun`: the length of the leading natural run, and
the list with that run made ascending (a strictly descending run is
reversed in place). -/
def countAndMakeRun {α : Type} (cmp : α → α → Except JsFault Int) (l : List α) :
    Except JsFault (Nat × List α) :=
  match l with
  | [] => Except.ok (0, [])
  | [a] => Except.ok (1, [a])
  | a :: b :: rest => do
    let o ← cmp b a
    if o < 0 then do
      let n ← descRunLen cmp b rest
      Except.ok (n + 2, ((a :: b :: rest).take (n + 2)).reverse ++ (a :: b :: rest).drop (n + 2))
    else do
      let n ← ascRunLen cmp b rest
      Except.ok (n + 2, a :: b :: rest)

/-- Binary search for the insertion point of `pivot` within the sorted
prefix: the probe moves left exactly when the comparator result for
(pivot, probed element) is negative.  Structural recursion on a fuel
argument; the search interval halves each step, so the fuel supplied by
`binInsertAll` is always sufficient and the exhaustion branch unreachable. -/
def binSearchPos {α : Type} (cmp : α → α → Except JsFault Int) (pivot : α)
    (sorted : List α) : Nat → Nat → Nat → Except JsFault Nat
  | 0, left, _ => pure left
  | fuel + 1, left, right =>
    if left < right then do
      let mid := left + (right - left) / 2
      let o ← cmp pivot (sorted.getD mid pivot)
      if o < 0 then binSearchPos cmp pivot sorted fuel left mid
      else binSearchPos cmp pivot sorted fuel (mid + 1) right
    else pure left

/-- TimSort's `BinaryInsertionSort`: insert the pending elements one by one
into the growing sorted prefix. -/
def binInsertAll {α : Type} (cmp : α → α → Except JsFault Int) :
    List α → List α → Except JsFault (List α)
  | sorted, [] => Except.ok sorted
  | sorted, x :: rest => do
    let pos ← binSearchPos cmp x sorted (sorted.length + 1) 0 sorted.length
    binInsertAll cmp (sorted.take pos ++ x :: sorted.drop pos) rest

/-- Stable merge of two adjacent runs (left run first): an element is taken
from the right run exactly when the comparator result for (right, left) is
negative.  Fuel-structural; one element is consumed per step, so the fuel
supplied by the callers (sum of the run lengths) is always sufficient. -/
def mergeRuns {α : Type} (cmp : α → α → Except JsFault Int) :
    Nat → List α → List α → Except JsFault (List α)
  | _, [], ys => Except.ok ys
  | _, x :: xs, [] => Except.ok (x :: xs)
  | 0, xs, _ => Except.ok xs
  | fuel + 1, x :: xs, y :: ys => do
    let o ← cmp y x
    if o < 0 then do
      let r ← mergeRuns cmp fuel (x :: xs) ys
      pure (y :: r)
    else do
      let r ← mergeRuns cmp fuel xs (y :: ys)
      pure (x :: r)

/-- TimSort's `MergeCollapse` over the stack of pending runs (most recent
run first): restore the run-length invariants by merging adjacent runs.
Fuel-structural; each merge shrinks the stack by one run, so the fuel
supplied by the callers (the stack height) is always sufficient. -/
def mergeCollapse {α : Type} (cmp : α → α → Except JsFault Int) :
    Nat → List (List α) → Except JsFault (List (List α))
  | 0, stack => Except.ok stack
  | fuel + 1, stack =>
    match stack with
    | r1 :: r2 :: r3 :: r4 :: rest =>
      if r3.length ≤ r2.length + r1.length ∨ r4.length ≤ r3.length + r2.length then
        if r3.length < r1.length then do
          let m ← mergeRuns cmp (r3.length + r2.length) r3 r2
          mergeCollapse cmp fuel (r1 :: m :: r4 :: rest)
        else do
          let m ← mergeRuns cmp (r2.length + r1.length) r2 r1
          mergeCollapse cmp fuel (m :: r3 :: r4 :: rest)
      else if r2.length ≤ r1.length then do
        let m ← mergeRuns cmp (r2.length + r1.length) r2 r1
        mergeCollapse cmp fuel (m :: r3 :: r4 :: rest)
      else Except.ok stack
    | [r1, r2, r3] =>
      if r3.length ≤ r2.length + r1.length then
        if r3.length < r1.length then do
          let m ← mergeRuns cmp (r3.length + r2.length) r3 r2
          mergeCollapse cmp fuel [r1, m]
        else do
          let m ← mergeRuns cmp (r2.length + r1.length) r2 r1
          mergeCollapse cmp fuel [m, r3]
      else if r2.length ≤ r1.length then do
        let m ← mergeRuns cmp (r2.length + r1.length) r2 r1
        mergeCollapse cmp fuel [m, r3]
      else Except.ok stack
    | [r1, r2] =>
      if r2.length ≤ r1.length then do
        let m ← mergeRuns cmp (r2.length + r1.length) r2 r1
        Except.ok [m]
      else Except.ok stack
    | s => Except.ok s

/-- TimSort's `MergeForceCollapse`: merge all pending runs into one.
Fuel-structural; each merge shrinks the stack by one run, so the fuel
supplied by the caller (the stack height) is always sufficient. -/
def mergeForceCollapse {α : Type} (cmp : α → α → Except JsFault Int) :
    Nat → List (List α) → Except JsFault (List α)
  | _, [] => Except.ok []
  | _, [r] => Except.ok r
  | 0, r :: _ => Except.ok r
  | _ + 1, [r1, r2] => mergeRuns cmp (r2.length + r1.length) r2 r1
  | fuel + 1, r1 :: r2 :: r3 :: rest =>
    if r3.length < r1.length then do
      let m ← mergeRuns cmp (r3.length + r2.length) r3 r2
      mergeForceCollapse cmp fuel (r1 :: m :: rest)
    else do
      let m ← mergeRuns cmp (r2.length + r1.length) r2 r1
      mergeForceCollapse cmp fuel (m :: r3 :: rest)

/-- TimSort's `ComputeMinRunLength` loop: halve until below 64, recording
whether any dropped bit was set.  Fuel-structural; the value at least
halves each step, so a fuel of the initial value is always sufficient. -/
def minRunLoop : Nat → Nat → Nat → Nat
  | 0, n, r => n + r
  | fuel + 1, n, r =>
    if n < 64 then n + r
    else minRunLoop fuel (n / 2) (if n % 2 = 1 then 1 else r)

def computeMinRunLength (n : Nat) : Nat := minRunLoop n n 0

/-- The TimSort main loop: repeatedly take the next natural run, extend it
to the minimal run length by binary insertion when it is short, push it and
collapse the pending-run stack.  The fuel argument bounds the number of
iterations; each iteration consumes at least one element, so a fuel of the
list's length is always sufficient and the fuel-exhausted branch is
unreachable. -/
def timLoop {α : Type} (cmp : α → α → Except JsFault Int) (minRun : Nat) :
    Nat → List (List α) → List α → Except JsFault (List α)
  | _, stack, [] => mergeForceCollapse cmp stack.length stack
  | 0, stack, _ => mergeForceCollapse cmp stack.length stack
  | fuel + 1, stack, l => do
    let rl ← countAndMakeRun cmp l
    let rs ←
      if rl.1 < minRun then do
        let forced := min minRun rl.2.length
        let run ← binInsertAll cmp (rl.2.take rl.1) ((rl.2.take forced).drop rl.1)
        Except.ok (forced, run)
      else Except.ok (rl.1, rl.2.take rl.1)
    let stack2 ← mergeCollapse cmp (stack.length + 1) (rs.2 :: stack)
    timLoop cmp minRun fuel stack2 (rl.2.drop rs.1)

/-- `Array.prototype.sort(comparator)` as implemented by the engine's
TimSort (see the section comment above).  Arrays of fewer than two
elements are returned unchanged without consulting the comparator. -/
def jsArraySort {α : Type} (cmp : α → α → Except JsFault Int) (l : List α) :
    Except JsFault (List α) :=
  if l.length < 2 then Except.ok l
  else timLoop cmp (computeMinRunLength l.length) l.length [] l

/-- The hook body: map every static port record to its merged record, then
sort the result with the stargazer comparator.  `edges` is the resolved
`github.search.edges` list, `projectPorts` the static port list. -/
def usePortsMetadata (routePorts idProperty : String) (edges : List Obj)
    (projectPorts : List Obj) : Except JsFault (List Obj) := do
  let merged ← mapME (mergePort routePorts idProperty edges) projectPorts
  jsArraySort stargazerLess merged

/-! ## Derived views and well-formedness of the resolved query shape -/

/-- The record under a found edge (total helper; edges produced by the
resolved query always carry an object here). -/
def nodeOf (e : Obj) : Obj :=
  match objGetD e "node" with
  | .obj n => n
  | _ => []

/-- The matched node's canonical repository URL field. -/
def nodeUrl (n : Obj) : JsValue := objGetD n "url"

/-- The matched node's stargazer total, as read by the hook. -/
def nodeTotalCount (n : Obj) : JsValue :=
  memberD (objGetD n "stargazers") "totalCount"

/-- The matched node's release-edge list. -/
def releaseEdges (n : Obj) : List JsValue :=
  match memberD (objGetD n "releases") "edges" with
  | .arr es => es
  | _ => []

/-- The value of `releases.edges[0]?.node` for a well-formed node. -/
def nodeReleaseLatest (n : Obj) : JsValue :=
  match memberD (objGetD n "releases") "edges" with
  | .arr es =>
    (match es.getD 0 .undef with
      | .undef => JsValue.undef
      | v => memberD v "node")
  | _ => JsValue.undef

/-- The matched node's `name` as a string (well-formed nodes carry one). -/
def nodeNameStr (n : Obj) : String :=
  match objGetD n "name" with
  | .str s => s
  | _ => ""

/-- The derived-field block of the merged record for node `n`. -/
def derivedOf (routePorts : String) (n : Obj) : Obj :=
  derivedFields routePorts (nodeUrl n) (nodeTotalCount n) (nodeReleaseLatest n) (nodeNameStr n)

/-- The merged record produced for static record `port` and matched node
`n`: derived fields, overlaid by the node's pass-through fields, overlaid by
the static record's fields. -/
def mergedRecord (routePorts : String) (n : Obj) (port : Obj) : Obj :=
  derivedOf routePorts n ++ passThrough n ++ port

/-- The value is a string. -/
def isStrV : JsValue → Bool
  | .str _ => true
  | _ => false

/-- A release edge as delivered by the resolved query: an object whose
`node` field is an object (the release record). -/
def wfRelEdge (e : JsValue) : Bool :=
  match e with
  | .obj eo =>
    (match objGetD eo "node" with
      | .obj _ => true
      | _ => false)
  | _ => false

/-- The node's `releases` field is an object carrying an `edges` array of
well-formed release edges. -/
def wfReleases (n : Obj) : Bool :=
  match memberD (objGetD n "releases") "edges" with
  | .arr es => es.all wfRelEdge
  | _ => false

/-- The node's `stargazers` field is an object with a numeric `totalCount`. -/
def wfStargazers (n : Obj) : Bool :=
  match objGetD n "stargazers" with
  | .obj so =>
    (match objGetD so "totalCount" with
      | .num _ => true
      | _ => false)
  | _ => false

/-- A repository node of the shape the fixed GraphQL query resolves to:
string `name`, `releases.edges` a list of release edges, `stargazers` with a
numeric `totalCount`, string `url`. -/
def wfNode (n : Obj) : Bool :=
  isStrV (objGetD n "name") && wfReleases n && wfStargazers n && isStrV (objGetD n "url")

/-- The node's `releases` field is an object (implied by `wfReleases`). -/
def wfEdge (e : Obj) : Bool :=
  match objGetD e "node" with
  | .obj n => wfNode n
  | _ => false

/-- Every element of the resolved `search.edges` list wraps a well-formed
repository node. -/
def wfEdges (edges : List Obj) : Bool := edges.all wfEdge

/-- The pure value of the lookup predicate for a well-formed edge. -/
def matchesPort (idProperty : String) (port e : Obj) : Bool :=
  jsStrictEq (memberD (objGetD e "node") idProperty) (objGetD port idProperty)

/-- The merged record's stargazer count, as read by the sort comparator. -/
def stargazerCountOf (m : Obj) : JsValue :=
  memberD (objGetD m "stargazers") "count"

/-- Adjacent pair in descending stargazer order (both counts numeric and
the left one at least the right one). -/
def pairDescB (a b : Obj) : Bool :=
  match stargazerCountOf a, stargazerCountOf b with
  | .num x, .num y => decide (y ≤ x)
  | _, _ => false

/-- The list is in descending stargazer order. -/
def descendingByStarsB : List Obj → Bool
  | a :: b :: rest => pairDescB a b && descendingByStarsB (b :: rest)
  | _ => true

/-- The record's `stargazers` field is an object with a `count` field. -/
def hasStargazersCount (m : Obj) : Bool :=
  match objGet? m "stargazers" with
  | some (.obj so) => (objGet? so "count").isSome
  | _ => false

/-- The optional value is present and is `undefined`. -/
def isUndefOpt : Option JsValue → Bool
  | some .undef => true
  | _ => false

/-! ## Concrete sample data for counterexamples and witnesses -/

/-- A well-formed repository node without releases. -/
def mkNode (name : String) (stars : Int) : Obj :=
  [("id", .str ("id-" ++ name)), ("name", .str name),
   ("releases", .obj [("edges", .arr [])]),
   ("stargazers", .obj [("totalCount", .num stars)]),
   ("url", .str ("https://github.com/arcticicestudio/" ++ name))]

/-- A well-formed repository node with one release. -/
def mkNodeRel (name : String) (stars : Int) (relName : String) : Obj :=
  [("id", .str ("id-" ++ name)), ("name", .str name),
   ("releases", .obj [("edges", .arr
      [.obj [("node", .obj [("name", .str relName), ("url", .str ("rel/" ++ relName))])]])]),
   ("stargazers", .obj [("totalCount", .num stars)]),
   ("url", .str ("https://github.com/arcticicestudio/" ++ name))]

/-- A search edge wrapping a node. -/
def mkEdge (n : Obj) : Obj := [("node", JsValue.obj n)]

/-- Remote result set with stargazer counts 5, 20, 10 (in that order). -/
def starEdges : List Obj :=
  [mkEdge (mkNode "nord-a" 5), mkEdge (mkNode "nord-b" 20), mkEdge (mkNode "nord-c" 10)]

/-- Static port list fully covered by `starEdges`, in the same order. -/
def starPorts : List Obj :=
  [[("name", JsValue.str "nord-a")], [("name", JsValue.str "nord-b")],
   [("name", JsValue.str "nord-c")]]

/-- Remote result set covering `faultPorts`. -/
def faultEdges : List Obj := [mkEdge (mkNode "nord-a" 5), mkEdge (mkNode "nord-b" 20)]

/-- Static port list whose first record binds `stargazers` to `undefined`. -/
def faultPorts : List Obj :=
  [[("name", JsValue.str "nord-a"), ("stargazers", JsValue.undef)],
   [("name", JsValue.str "nord-b")]]

def vimNode : Obj := mkNode "nord-vim" 3

def vimEdges : List Obj := [mkEdge vimNode]

def vimPort : Obj := [("name", JsValue.str "nord-vim")]

/-- Static record shadowing the derived `stargazers` field with a string. -/
def shadowPort : Obj := [("name", JsValue.str "nord-vim"), ("stargazers", JsValue.str "shadowed")]

/-- Static record shadowing the derived `url` field. -/
def urlPort : Obj := [("name", JsValue.str "nord-vim"), ("url", JsValue.str "/custom")]

/-- Static record shadowing the derived `releaseLatest` field. -/
def releasePort : Obj := [("name", JsValue.str "nord-vim"), ("releaseLatest", JsValue.str "fake")]

/-- Remote result set whose node carries one release. -/
def relEdges : List Obj := [mkEdge (mkNodeRel "nord-vim" 3 "v1.0")]

/-- Static record with no counterpart in any of the sample remote sets. -/
def orphanPort : Obj := [("name", JsValue.str "nord-zzz")]

/-! ## Basic lemmas -/

/-- Lookup across a concatenation: the later (right) part wins. -/
theorem objGet?_append (a b : Obj) (k : String) :
    objGet? (a ++ b) k = oOr (objGet? b k) (objGet? a k) := by
  induction a with
  | nil =>
    show objGet? b k = _
    cases h : objGet? b k <;> simp [oOr, objGet?]
  | cons kv rest ih =>
    simp only [List.cons_append, objGet?, List.append_eq]
    rw [ih]
    cases h1 : objGet? b k <;> cases h2 : objGet? rest k <;> simp [oOr, h1, h2]

/-- The pass-through set removes exactly the three destructured keys. -/
theorem objGet?_passThrough (n : Obj) (k : String) :
    objGet? (passThrough n) k =
      if k = "releases" ∨ k = "stargazers" ∨ k = "url" then none else objGet? n k := by
  induction n with
  | nil => simp [passThrough, objGet?]
  | cons kv rest ih =>
    have hstep : passThrough (kv :: rest) =
        if kv.1 = "releases" ∨ kv.1 = "stargazers" ∨ kv.1 = "url"
        then passThrough rest else kv :: passThrough rest := by
      simp only [passThrough, List.filter_cons]
      by_cases h : kv.1 = "releases" ∨ kv.1 = "stargazers" ∨ kv.1 = "url"
      · rcases h with h | h | h <;> simp [h]
      · push_neg at h
        obtain ⟨h1, h2, h3⟩ := h
        simp [h1, h2, h3]
    rw [hstep]
    by_cases hkv : kv.1 = "releases" ∨ kv.1 = "stargazers" ∨ kv.1 = "url"
    · rw [if_pos hkv, ih]
      by_cases hk : k = "releases" ∨ k = "stargazers" ∨ k = "url"
      · simp [hk]
      · rw [if_neg hk, if_neg hk]
        have hne : kv.1 ≠ k := by
          intro he
          rw [he] at hkv
          exact hk hkv
        conv_rhs => rw [objGet?]
        cases objGet? rest k <;> simp [hne]
    · rw [if_neg hkv]
      by_cases hk : k = "releases" ∨ k = "stargazers" ∨ k = "url"
      · rw [if_pos hk]
        have hrest : objGet? (passThrough rest) k = none := by rw [ih, if_pos hk]
        have hne : kv.1 ≠ k := fun he => hkv (he ▸ hk)
        simp only [objGet?, hrest, hne, if_false]
      · rw [if_neg hk]
        have hrest := ih
        rw [if_neg hk] at hrest
        simp only [objGet?, hrest]

/-- `Except` bind on a success. -/
theorem exBind_ok {α β : Type} (a : α) (f : α → Except JsFault β) :
    (Except.ok a >>= f) = f a := rfl

/-- `Except` bind on a fault. -/
theorem exBind_error {α β : Type} (e : JsFault) (f : α → Except JsFault β) :
    ((Except.error e : Except JsFault α) >>= f) = Except.error e := rfl

/-- `pure` on `Except` is `ok`. -/
theorem exPure {α : Type} (a : α) : (pure a : Except JsFault α) = Except.ok a := rfl

/-- Member access on an object value succeeds with the field lookup. -/
theorem jsMember_obj (o : Obj) (k : String) :
    jsMember (JsValue.obj o) k = Except.ok (objGetD o k) := rfl

/-- Total member access on an object value is the field lookup. -/
theorem memberD_obj (o : Obj) (k : String) :
    memberD (JsValue.obj o) k = objGetD o k := rfl

/-- Indexing an array value yields the element (or `undefined`). -/
theorem jsIndex_arr (l : List JsValue) (i : Nat) :
    jsIndex (JsValue.arr l) i = Except.ok (l.getD i .undef) := rfl

/-- Effectful member access agrees with the total one off `undefined`. -/
theorem jsMember_eq_memberD (v : JsValue) (k : String) (h : v ≠ .undef) :
    jsMember v k = .ok (memberD v k) := by
  cases v <;> first | exact absurd rfl h | rfl

/-- A string-valued check yields a string. -/
theorem isStrV_spec {v : JsValue} (h : isStrV v = true) : ∃ s, v = .str s := by
  cases v <;> first | exact ⟨_, rfl⟩ | simp [isStrV] at h

/-- Unfolding a well-formed edge. -/
theorem wfEdge_parts (e : Obj) (h : wfEdge e = true) :
    objGetD e "node" = .obj (nodeOf e) ∧ wfNode (nodeOf e) = true := by
  unfold wfEdge at h
  unfold nodeOf
  cases hn : objGetD e "node" <;> rw [hn] at h
  case obj n => exact ⟨rfl, h⟩
  all_goals simp at h

/-- Unfolding a well-formed release block. -/
theorem wfReleases_spec {n : Obj} (h : wfReleases n = true) :
    ∃ ro es, objGetD n "releases" = .obj ro ∧ objGetD ro "edges" = .arr es ∧
      es.all wfRelEdge = true := by
  unfold wfReleases at h
  cases hrel : objGetD n "releases" <;> rw [hrel] at h <;> simp [memberD] at h
  case obj ro =>
    cases hed : objGetD ro "edges" <;> rw [hed] at h <;> simp at h
    case arr es => exact ⟨ro, es, rfl, hed, List.all_eq_true.mpr h⟩

/-- Unfolding a well-formed stargazer block. -/
theorem wfStargazers_spec {n : Obj} (h : wfStargazers n = true) :
    ∃ so, objGetD n "stargazers" = .obj so ∧ ∃ t, objGetD so "totalCount" = .num t := by
  unfold wfStargazers at h
  cases hst : objGetD n "stargazers" <;> rw [hst] at h <;> simp at h
  case obj so =>
    cases htc : objGetD so "totalCount" <;> rw [htc] at h <;> simp at h
    case num t => exact ⟨so, rfl, t, htc⟩

/-- Unfolding a well-formed release edge. -/
theorem wfRelEdge_spec {v : JsValue} (h : wfRelEdge v = true) :
    ∃ eo no, v = .obj eo ∧ objGetD eo "node" = .obj no := by
  cases v <;> simp [wfRelEdge] at h
  case obj eo =>
    cases hn : objGetD eo "node" <;> rw [hn] at h <;> simp at h
    case obj no => exact ⟨eo, no, rfl, hn⟩

/-- On well-formed edges the lookup never faults and agrees with `find?`
over the pure predicate. -/
theorem findGitHubEdge_eq_find? (idProperty : String) (edges : List Obj) (port : Obj)
    (h : ∀ e ∈ edges, wfEdge e = true) :
    findGitHubEdge idProperty edges port = .ok (edges.find? (matchesPort idProperty port)) := by
  induction edges with
  | nil => rfl
  | cons e rest ih =>
    obtain ⟨hnode, -⟩ := wfEdge_parts e (h e (List.mem_cons_self _ _))
    have hrest : ∀ x ∈ rest, wfEdge x = true := fun x hx => h x (List.mem_cons_of_mem _ hx)
    have hmp : matchesPort idProperty port e =
        jsStrictEq (objGetD (nodeOf e) idProperty) (objGetD port idProperty) := by
      unfold matchesPort
      rw [hnode]
      rfl
    unfold findGitHubEdge at ih ⊢
    simp only [exPure] at ih
    simp only [findE, List.find?_cons, hmp, hnode, exPure]
    rw [jsMember_obj]
    simp only [exBind_ok]
    by_cases hm : jsStrictEq (objGetD (nodeOf e) idProperty) (objGetD port idProperty) = true
    · simp [hm]
    · simp only [Bool.not_eq_true] at hm
      simp only [hm]
      simp
      exact ih hrest

/-- The merge body on an object node, with the destructured reads exposed. -/
theorem mergeGhNode_obj (routePorts : String) (n : Obj) (port : Obj) :
    mergeGhNode routePorts (.obj n) port = (do
      let totalCount ← jsMember (objGetD n "stargazers") "totalCount"
      let relEdges ← jsMember (objGetD n "releases") "edges"
      let e0 ← jsIndex relEdges 0
      let releaseLatest ← (match e0 with
        | .undef => Except.ok JsValue.undef
        | v => jsMember v "node")
      let nameS ← (match objGetD n "name" with
        | .str s => Except.ok s
        | .undef => Except.error (JsFault.undefinedDeref "replace")
        | _ => Except.error (JsFault.notAFunction "replace"))
      Except.ok (derivedFields routePorts (objGetD n "url") totalCount releaseLatest nameS
        ++ passThrough n ++ port)) := rfl

/-- On a successful lookup against well-formed edges, the merge produces
exactly the overlay record for the found node. -/
theorem mergePort_eq_of_find (routePorts idProperty : String) (edges : List Obj)
    (port e : Obj) (hWf : ∀ x ∈ edges, wfEdge x = true)
    (hfind : edges.find? (matchesPort idProperty port) = some e) :
    mergePort routePorts idProperty edges port =
      Except.ok (mergedRecord routePorts (nodeOf e) port) := by
  have hmem : e ∈ edges := List.mem_of_find?_eq_some hfind
  obtain ⟨hnode, hwfn⟩ := wfEdge_parts e (hWf e hmem)
  unfold wfNode at hwfn
  simp only [Bool.and_eq_true] at hwfn
  obtain ⟨⟨⟨hname, hrel⟩, hstar⟩, hurl⟩ := hwfn
  obtain ⟨s, hs⟩ := isStrV_spec hname
  obtain ⟨ro, es, hro, hes, hall⟩ := wfReleases_spec hrel
  obtain ⟨so, hso, t, htc⟩ := wfStargazers_spec hstar
  unfold mergePort
  rw [findGitHubEdge_eq_find? idProperty edges port hWf, hfind, exBind_ok]
  show mergeGhNode routePorts (objGetD e "node") port = _
  rw [hnode, mergeGhNode_obj, hso, jsMember_obj]
  simp only [exBind_ok]
  rw [hro, jsMember_obj, hes]
  simp only [exBind_ok, jsIndex_arr]
  have htcc : nodeTotalCount (nodeOf e) = objGetD so "totalCount" := by
    unfold nodeTotalCount
    rw [hso, memberD_obj]
  have hnm : nodeNameStr (nodeOf e) = s := by
    unfold nodeNameStr
    rw [hs]
  unfold mergedRecord derivedOf
  rw [htcc, hnm]
  cases es with
  | nil =>
    have hrl : nodeReleaseLatest (nodeOf e) = JsValue.undef := by
      unfold nodeReleaseLatest
      rw [hro, memberD_obj, hes]
      rfl
    rw [hrl, hs]
    rfl
  | cons v es' =>
    have hv : wfRelEdge v = true :=
      List.all_eq_true.mp hall v (List.mem_cons_self _ _)
    obtain ⟨eo, no, hveq, hno⟩ := wfRelEdge_spec hv
    subst hveq
    have hrl : nodeReleaseLatest (nodeOf e) = objGetD eo "node" := by
      unfold nodeReleaseLatest
      rw [hro, memberD_obj, hes]
      rfl
    rw [hrl, hs]
    rfl

/-- A successful effectful map succeeds elementwise, in order. -/
theorem mapME_ok_forall₂ {α β : Type} (f : α → Except JsFault β) :
    ∀ (l : List α) (out : List β), mapME f l = .ok out →
      List.Forall₂ (fun a b => f a = .ok b) l out := by
  intro l
  induction l with
  | nil =>
    intro out h
    simp only [mapME, Except.ok.injEq] at h
    subst h
    exact .nil
  | cons x xs ih =>
    intro out h
    simp only [mapME] at h
    cases hx : f x with
    | error er => rw [hx, exBind_error] at h; cases h
    | ok y =>
      rw [hx, exBind_ok] at h
      cases hxs : mapME f xs with
      | error er => rw [hxs, exBind_error] at h; cases h
      | ok ys =>
        rw [hxs, exBind_ok, exPure] at h
        simp only [Except.ok.injEq] at h
        subst h
        exact .cons hx (ih ys hxs)

/-- An elementwise-successful effectful map succeeds. -/
theorem mapME_ok_of_all {α β : Type} (f : α → Except JsFault β) :
    ∀ (l : List α), (∀ x ∈ l, ∃ y, f x = .ok y) → ∃ out, mapME f l = .ok out := by
  intro l
  induction l with
  | nil => exact fun _ => ⟨[], rfl⟩
  | cons x xs ih =>
    intro h
    obtain ⟨y, hy⟩ := h x (List.mem_cons_self _ _)
    obtain ⟨ys, hys⟩ := ih (fun z hz => h z (List.mem_cons_of_mem _ hz))
    exact ⟨y :: ys, by simp only [mapME]; rw [hy, exBind_ok, hys, exBind_ok, exPure]⟩

/-- A faulting element makes the effectful map fault. -/
theorem mapME_error_of_mem {α β : Type} (f : α → Except JsFault β) :
    ∀ (l : List α) (x : α), x ∈ l → (∃ er, f x = .error er) →
      ∃ er, mapME f l = .error er := by
  intro l
  induction l with
  | nil => intro x hx _; exact absurd hx (List.not_mem_nil x)
  | cons z zs ih =>
    intro x hx her
    obtain ⟨er, her⟩ := her
    cases hz : f z with
    | error e2 => exact ⟨e2, by simp only [mapME]; rw [hz, exBind_error]⟩
    | ok y =>
      rcases List.mem_cons.mp hx with rfl | hmem
      · rw [hz] at her; cases her
      · obtain ⟨er2, h2⟩ := ih x hmem ⟨er, her⟩
        exact ⟨er2, by simp only [mapME]; rw [hz, exBind_ok, h2, exBind_error]⟩

/-- Right members of a `Forall₂` come from related left members. -/
theorem forall₂_mem_right {α β : Type} {R : α → β → Prop} :
    ∀ {l : List α} {out : List β}, List.Forall₂ R l out →
      ∀ b ∈ out, ∃ a ∈ l, R a b := by
  intro l out h
  induction h with
  | nil => intro b hb; exact absurd hb (List.not_mem_nil b)
  | cons hR hF ih =>
    intro b hb
    rcases List.mem_cons.mp hb with rfl | hb2
    · exact ⟨_, List.mem_cons_self _ _, hR⟩
    · obtain ⟨a, ha, hr⟩ := ih b hb2
      exact ⟨a, List.mem_cons_of_mem _ ha, hr⟩

/-- `Forall₂` strengthening that may use membership on the left. -/
theorem forall₂_imp_mem {α β : Type} {R S : α → β → Prop} :
    ∀ {l : List α} {out : List β}, List.Forall₂ R l out →
      (∀ a ∈ l, ∀ b, R a b → S a b) → List.Forall₂ S l out := by
  intro l out h
  induction h with
  | nil => exact fun _ => .nil
  | cons hR hF ih =>
    intro himp
    exact .cons (himp _ (List.mem_cons_self _ _) _ hR)
      (ih fun a ha b hr => himp a (List.mem_cons_of_mem _ ha) b hr)

/-! ## The boolean comparator and the engine sort -/

/-- The comparator signal is defined and non-negative whenever both records
carry a non-`undefined` `stargazers` field. -/
theorem stargazerLess_nonneg {m1 m2 : Obj}
    (h1 : objGetD m1 "stargazers" ≠ .undef) (h2 : objGetD m2 "stargazers" ≠ .undef) :
    ∃ k, stargazerLess m1 m2 = .ok k ∧ 0 ≤ k := by
  refine ⟨if jsLessThan (memberD (objGetD m1 "stargazers") "count")
      (memberD (objGetD m2 "stargazers") "count") then 1 else 0, ?_, by split <;> omega⟩
  unfold stargazerLess
  rw [jsMember_eq_memberD _ _ h1, exBind_ok, jsMember_eq_memberD _ _ h2, exBind_ok, exPure]

/-- With a never-negative comparator, run extension reaches the end. -/
theorem ascRunLen_of_nonneg {α : Type} {cmp : α → α → Except JsFault Int} {u : List α}
    (hcmp : ∀ a ∈ u, ∀ b ∈ u, ∃ k, cmp a b = .ok k ∧ 0 ≤ k) :
    ∀ (p : α) (l : List α), p ∈ u → (∀ x ∈ l, x ∈ u) →
      ascRunLen cmp p l = .ok l.length := by
  intro p l
  induction l generalizing p with
  | nil => intro _ _; rfl
  | cons x xs ih =>
    intro hp hl
    obtain ⟨k, hk, hk0⟩ := hcmp x (hl x (List.mem_cons_self _ _)) p hp
    simp only [ascRunLen]
    rw [hk, exBind_ok, if_neg (by omega : ¬(k < 0)),
      ih x (hl x (List.mem_cons_self _ _)) (fun z hz => hl z (List.mem_cons_of_mem _ hz)),
      exBind_ok, exPure]
    simp

/-- With a never-negative comparator, the whole array is one ascending run. -/
theorem countAndMakeRun_of_nonneg {α : Type} {cmp : α → α → Except JsFault Int} {u : List α}
    (hcmp : ∀ a ∈ u, ∀ b ∈ u, ∃ k, cmp a b = .ok k ∧ 0 ≤ k) :
    ∀ (l : List α), l ≠ [] → (∀ x ∈ l, x ∈ u) →
      countAndMakeRun cmp l = .ok (l.length, l) := by
  intro l hne hsub
  cases l with
  | nil => exact absurd rfl hne
  | cons a l1 =>
    cases l1 with
    | nil => rfl
    | cons b rest =>
      obtain ⟨k, hk, hk0⟩ := hcmp b (hsub b (by simp)) a (hsub a (by simp))
      simp only [countAndMakeRun]
      rw [hk, exBind_ok, if_neg (by omega : ¬(k < 0)),
        ascRunLen_of_nonneg hcmp b rest (hsub b (by simp))
          (fun z hz => hsub z (by simp [hz])),
        exBind_ok]
      simp

/-- The `minRunLength` loop never exceeds 64 once the input is at least 64. -/
theorem minRunLoop_le_64 : ∀ (fuel n r : Nat), n ≤ fuel → r ≤ 1 → 64 ≤ n →
    minRunLoop fuel n r ≤ 64 := by
  intro fuel
  induction fuel with
  | zero => intro n r hn _ h64; omega
  | succ f ih =>
    intro n r hn hr h64
    simp only [minRunLoop]
    rw [if_neg (by omega : ¬(n < 64))]
    by_cases hhalf : n / 2 < 64
    · have hr2 : (if n % 2 = 1 then 1 else r) ≤ 1 := by split <;> omega
      cases f with
      | zero => omega
      | succ f2 =>
        simp only [minRunLoop]
        rw [if_pos hhalf]
        omega
    · have hr2 : (if n % 2 = 1 then 1 else r) ≤ 1 := by split <;> omega
      exact ih (n / 2) _ (by omega) hr2 (by omega)

/-- Below the threshold the loop returns immediately. -/
theorem minRunLoop_small (fuel n r : Nat) (h : n < 64) : minRunLoop fuel n r = n + r := by
  cases fuel <;> simp [minRunLoop, h]

/-- The minimal run length never exceeds the array length. -/
theorem computeMinRunLength_le (n : Nat) : computeMinRunLength n ≤ n := by
  unfold computeMinRunLength
  by_cases h : n < 64
  · rw [minRunLoop_small n n 0 h]
    omega
  · have := minRunLoop_le_64 n n 0 (le_refl n) (by omega) (by omega)
    omega

/-- Collapsing a single pending run is a no-op. -/
theorem mergeCollapse_singleton {α : Type} (cmp : α → α → Except JsFault Int)
    (fuel : Nat) (r : List α) : mergeCollapse cmp fuel [r] = .ok [r] := by
  cases fuel <;> rfl

/-- Force-collapsing a single pending run yields it. -/
theorem mergeForceCollapse_singleton {α : Type} (cmp : α → α → Except JsFault Int)
    (fuel : Nat) (r : List α) : mergeForceCollapse cmp fuel [r] = .ok r := by
  cases fuel <;> rfl

/-- The engine sort with a comparator that never reports a negative signal
returns the array unchanged: the run detection sees one ascending run
covering the whole array, and nothing is ever merged or moved. -/
theorem jsArraySort_of_nonneg {α : Type} (cmp : α → α → Except JsFault Int) (l : List α)
    (hcmp : ∀ a ∈ l, ∀ b ∈ l, ∃ k, cmp a b = .ok k ∧ 0 ≤ k) :
    jsArraySort cmp l = .ok l := by
  unfold jsArraySort
  by_cases h2 : l.length < 2
  · rw [if_pos h2]
  · rw [if_neg h2]
    cases l with
    | nil => simp at h2
    | cons a rest =>
      show timLoop cmp (computeMinRunLength (a :: rest).length) (rest.length + 1) []
        (a :: rest) = _
      simp only [timLoop]
      rw [countAndMakeRun_of_nonneg hcmp _ (by simp) (fun x hx => hx), exBind_ok]
      rw [if_neg (by
        have := computeMinRunLength_le (a :: rest).length
        omega)]
      rw [exBind_ok]
      simp only [List.take_length]
      rw [mergeCollapse_singleton, exBind_ok]
      simp only [List.drop_length]
      simp only [timLoop]
      exact mergeForceCollapse_singleton cmp _ _

/-- The merged record's `stargazers` read is never `undefined` unless the
static record itself binds `stargazers` to `undefined`. -/
theorem mergedRecord_stargazers_ne_undef (routePorts : String) (n port : Obj)
    (hport : objGet? port "stargazers" ≠ some JsValue.undef) :
    objGetD (mergedRecord routePorts n port) "stargazers" ≠ JsValue.undef := by
  have hpass : objGet? (passThrough n) "stargazers" = none := by
    rw [objGet?_passThrough]
    simp
  have hder : objGet? (derivedOf routePorts n) "stargazers"
      = some (derivedStargazers (nodeTotalCount n) (nodeUrl n)) := rfl
  unfold mergedRecord objGetD
  rw [objGet?_append, objGet?_append, hpass, hder]
  cases hp : objGet? port "stargazers" with
  | none => simp [oOr, derivedStargazers]
  | some v =>
    have hv : v ≠ JsValue.undef := fun hveq => hport (by rw [hp, hveq])
    simp [oOr, hv]

/-- The pipeline on well-formed, fully covering remote data: the merge
succeeds, and because the comparator signal is never negative the sort
returns the merged list unchanged, in static-list order. -/
theorem usePortsMetadata_ok (routePorts idProperty : String) (edges ports : List Obj)
    (hWf : wfEdges edges = true)
    (hcov : ∀ p ∈ ports, ∃ e, edges.find? (matchesPort idProperty p) = some e)
    (hsg : ∀ p ∈ ports, objGet? p "stargazers" ≠ some JsValue.undef) :
    ∃ merged, mapME (mergePort routePorts idProperty edges) ports = .ok merged ∧
      usePortsMetadata routePorts idProperty edges ports = .ok merged ∧
      List.Forall₂ (fun p m => ∃ e, edges.find? (matchesPort idProperty p) = some e ∧
        m = mergedRecord routePorts (nodeOf e) p) ports merged := by
  have hWf' : ∀ x ∈ edges, wfEdge x = true := List.all_eq_true.mp hWf
  obtain ⟨merged, hm⟩ := mapME_ok_of_all _ ports (fun p hp => by
    obtain ⟨e, he⟩ := hcov p hp
    exact ⟨_, mergePort_eq_of_find routePorts idProperty edges p e hWf' he⟩)
  have hfa := mapME_ok_forall₂ _ _ _ hm
  have hfa2 : List.Forall₂ (fun p m => ∃ e, edges.find? (matchesPort idProperty p) = some e ∧
      m = mergedRecord routePorts (nodeOf e) p) ports merged := by
    refine forall₂_imp_mem hfa (fun p hp m hpm => ?_)
    obtain ⟨e, he⟩ := hcov p hp
    refine ⟨e, he, ?_⟩
    rw [mergePort_eq_of_find routePorts idProperty edges p e hWf' he] at hpm
    injection hpm with h
    exact h.symm
  have hsort : jsArraySort stargazerLess merged = .ok merged := by
    apply jsArraySort_of_nonneg
    intro a ha b hb
    obtain ⟨p1, hp1, e1, -, rfl⟩ := forall₂_mem_right hfa2 a ha
    obtain ⟨p2, hp2, e2, -, rfl⟩ := forall₂_mem_right hfa2 b hb
    exact stargazerLess_nonneg
      (mergedRecord_stargazers_ne_undef _ _ _ (hsg p1 hp1))
      (mergedRecord_stargazers_ne_undef _ _ _ (hsg p2 hp2))
  refine ⟨merged, hm, ?_, hfa2⟩
  unfold usePortsMetadata
  rw [hm, exBind_ok, hsort]

/-- Presence through the overlay from the right (derived) side. -/
theorem oOr_isSome {a b : Option JsValue} (hb : b.isSome = true) : (oOr a b).isSome = true := by
  cases a <;> simp [oOr, hb]

/-- Per-field view of the merged record: static wins, then pass-through,
then derived. -/
theorem mergedRecord_get (routePorts : String) (n p : Obj) (k : String) :
    objGet? (mergedRecord routePorts n p) k =
      oOr (objGet? p k) (oOr (objGet? (passThrough n) k) (objGet? (derivedOf routePorts n) k)) := by
  unfold mergedRecord
  rw [objGet?_append, objGet?_append]

/-- Field guarantees of a merged record whose static side does not shadow
`stargazers`. -/
theorem mergedRecord_guarantees (routePorts : String) (n p : Obj)
    (hsh : objGet? p "stargazers" = none) :
    (objGet? (mergedRecord routePorts n p) "gitHubRepositoryUrl").isSome = true ∧
    (∃ so, objGet? (mergedRecord routePorts n p) "stargazers" = some (.obj so) ∧
      (objGet? so "count").isSome = true ∧ (objGet? so "url").isSome = true) ∧
    (objGet? (mergedRecord routePorts n p) "url").isSome = true ∧
    (∀ k v, objGet? p k = some v → objGet? (mergedRecord routePorts n p) k = some v) := by
  refine ⟨?_, ?_, ?_, ?_⟩
  · rw [mergedRecord_get]
    exact oOr_isSome (oOr_isSome (by rfl))
  · refine ⟨[("count", nodeTotalCount n),
      ("url", .str (jsToString (nodeUrl n) ++ "/stargazers"))], ?_, rfl, rfl⟩
    have hpass : objGet? (passThrough n) "stargazers" = none := by
      rw [objGet?_passThrough]
      simp
    rw [mergedRecord_get, hsh, hpass]
    rfl
  · rw [mergedRecord_get]
    exact oOr_isSome (oOr_isSome (by rfl))
  · intro k v hv
    rw [mergedRecord_get, hv]
    rfl

/-- `find?` returns the first match, ignoring everything after it. -/
theorem find?_first {α : Type} (p : α → Bool) :
    ∀ (pre : List α) (e : α) (post : List α), (∀ x ∈ pre, p x = false) → p e = true →
      (pre ++ e :: post).find? p = some e := by
  intro pre
  induction pre with
  | nil => intro e post _ he; simp [List.find?_cons, he]
  | cons x xs ih =>
    intro e post hpre he
    have hx := hpre x (List.mem_cons_self _ _)
    simp only [List.cons_append, List.find?_cons, hx]
    exact ih e post (fun z hz => hpre z (List.mem_cons_of_mem _ hz)) he

/-! ## The claims -/

/-- C1 (counterexample): with full remote coverage and counts 5, 20, 10 in
static order, the pipeline succeeds but its output — returned in merge
order, because the boolean comparator signal is never negative — is NOT in
descending stargazer order, refuting the claimed descending ordering. -/
theorem usePortsMetadata_not_descending_cex :
    wfEdges starEdges = true ∧
    starPorts.all (fun p => starEdges.any (matchesPort "name" p)) = true ∧
    usePortsMetadata "/docs/ports" "name" starEdges starPorts =
      .ok [mergedRecord "/docs/ports" (mkNode "nord-a" 5) [("name", JsValue.str "nord-a")],
           mergedRecord "/docs/ports" (mkNode "nord-b" 20) [("name", JsValue.str "nord-b")],
           mergedRecord "/docs/ports" (mkNode "nord-c" 10) [("name", JsValue.str "nord-c")]] ∧
    descendingByStarsB
      [mergedRecord "/docs/ports" (mkNode "nord-a" 5) [("name", JsValue.str "nord-a")],
       mergedRecord "/docs/ports" (mkNode "nord-b" 20) [("name", JsValue.str "nord-b")],
       mergedRecord "/docs/ports" (mkNode "nord-c" 10) [("name", JsValue.str "nord-c")]] = false :=
  ⟨rfl, rfl, rfl, rfl⟩

/-- C1 (amended): the sort consumes the boolean less-than comparator as the
sort-order signal; the coerced signal (`true ↦ 1`, `false ↦ 0`) is never
negative, so the run-detecting engine sort returns the merged sequence
unchanged — the output is the merge (static-list) order, with no descending
guarantee. -/
theorem usePortsMetadata_merge_order (routePorts idProperty : String)
    (edges ports : List Obj)
    (hWf : wfEdges edges = true)
    (hcov : ∀ p ∈ ports, ∃ e, edges.find? (matchesPort idProperty p) = some e)
    (hsg : ∀ p ∈ ports, objGet? p "stargazers" ≠ some JsValue.undef) :
    ∃ merged, mapME (mergePort routePorts idProperty edges) ports = .ok merged ∧
      usePortsMetadata routePorts idProperty edges ports = .ok merged := by
  obtain ⟨m, h1, h2, -⟩ := usePortsMetadata_ok routePorts idProperty edges ports hWf hcov hsg
  exact ⟨m, h1, h2⟩

theorem usePortsMetadata_merge_order_witness :
    ∃ merged, mapME (mergePort "/docs/ports" "name" starEdges) starPorts = .ok merged ∧
      usePortsMetadata "/docs/ports" "name" starEdges starPorts = .ok merged :=
  usePortsMetadata_merge_order "/docs/ports" "name" starEdges starPorts rfl
    (by
      intro p hp
      simp only [starPorts, List.mem_cons, List.not_mem_nil, or_false] at hp
      rcases hp with rfl | rfl | rfl
      · exact ⟨mkEdge (mkNode "nord-a" 5), rfl⟩
      · exact ⟨mkEdge (mkNode "nord-b" 20), rfl⟩
      · exact ⟨mkEdge (mkNode "nord-c" 10), rfl⟩)
    (by
      intro p hp
      simp only [starPorts, List.mem_cons, List.not_mem_nil, or_false] at hp
      rcases hp with rfl | rfl | rfl <;> exact fun h => nomatch h)

/-- C2: a static record whose `idProperty` value has no counterpart in the
remote set makes the merge fault with the `undefined` dereference of the
lookup result (`gh.node`); the fault propagates, so the hook never returns
an output list — the record is not silently omitted and no fallback is
substituted. -/
theorem mergePort_missing_match_faults (routePorts idProperty : String)
    (edges : List Obj) (port : Obj)
    (hWf : wfEdges edges = true)
    (hnone : ∀ e ∈ edges, matchesPort idProperty port e = false) :
    mergePort routePorts idProperty edges port = .error (.undefinedDeref "node") ∧
    ∀ ports, port ∈ ports →
      ∀ out, usePortsMetadata routePorts idProperty edges ports ≠ .ok out := by
  have hWf' := List.all_eq_true.mp hWf
  have hfind : edges.find? (matchesPort idProperty port) = none :=
    List.find?_eq_none.mpr (fun x hx => by simp [hnone x hx])
  have h1 : mergePort routePorts idProperty edges port = .error (.undefinedDeref "node") := by
    unfold mergePort
    rw [findGitHubEdge_eq_find? idProperty edges port hWf', hfind, exBind_ok]
  refine ⟨h1, fun ports hmem out hok => ?_⟩
  obtain ⟨er, her⟩ := mapME_error_of_mem _ ports port hmem ⟨_, h1⟩
  unfold usePortsMetadata at hok
  rw [her, exBind_error] at hok
  cases hok

theorem mergePort_missing_match_faults_witness :
    mergePort "/docs/ports" "name" vimEdges orphanPort = .error (.undefinedDeref "node") ∧
    usePortsMetadata "/docs/ports" "name" vimEdges [orphanPort] ≠ .ok [] :=
  have h := mergePort_missing_match_faults "/docs/ports" "name" vimEdges orphanPort rfl
    (by
      intro e he
      simp only [vimEdges, List.mem_singleton] at he
      subst he
      rfl)
  ⟨h.1, h.2 [orphanPort] (List.mem_singleton.mpr rfl) []⟩

/-- C3: on a match, the merged record is exactly the derived fields,
overlaid by the pass-through remote fields, overlaid by the static record's
fields; per field, the static binding wins, then the pass-through binding,
then the derived binding — so static fields always take precedence. -/
theorem mergePort_overlay (routePorts idProperty : String) (edges : List Obj) (port e : Obj)
    (hWf : wfEdges edges = true)
    (hfind : edges.find? (matchesPort idProperty port) = some e) :
    mergePort routePorts idProperty edges port =
      .ok (derivedOf routePorts (nodeOf e) ++ passThrough (nodeOf e) ++ port) ∧
    (∀ k, objGet? (derivedOf routePorts (nodeOf e) ++ passThrough (nodeOf e) ++ port) k =
      oOr (objGet? port k)
        (oOr (objGet? (passThrough (nodeOf e)) k)
          (objGet? (derivedOf routePorts (nodeOf e)) k))) ∧
    (∀ k v, objGet? port k = some v →
      objGet? (derivedOf routePorts (nodeOf e) ++ passThrough (nodeOf e) ++ port) k = some v) := by
  have h1 := mergePort_eq_of_find routePorts idProperty edges port e
    (List.all_eq_true.mp hWf) hfind
  refine ⟨h1, fun k => mergedRecord_get routePorts (nodeOf e) port k, fun k v hv => ?_⟩
  rw [objGet?_append, objGet?_append, hv]
  rfl

theorem mergePort_overlay_witness :
    mergePort "/docs/ports" "name" vimEdges vimPort =
      .ok (derivedOf "/docs/ports" (nodeOf (mkEdge vimNode))
        ++ passThrough (nodeOf (mkEdge vimNode)) ++ vimPort) ∧
    objGet? (derivedOf "/docs/ports" (nodeOf (mkEdge vimNode))
        ++ passThrough (nodeOf (mkEdge vimNode)) ++ vimPort) "name" =
      oOr (objGet? vimPort "name")
        (oOr (objGet? (passThrough (nodeOf (mkEdge vimNode))) "name")
          (objGet? (derivedOf "/docs/ports" (nodeOf (mkEdge vimNode))) "name")) :=
  have h := mergePort_overlay "/docs/ports" "name" vimEdges vimPort (mkEdge vimNode) rfl rfl
  ⟨h.1, h.2.1 "name"⟩

/-- C4 (counterexample): the pass-through set actually used by the merge
retains the identifying field — for the default `idProperty` of `"name"`,
the matched node's pass-through set still binds `"name"` — refuting the
claim that the identifying field is removed from it. -/
theorem passThrough_keeps_id_cex :
    mergePort "/docs/ports" "name" vimEdges vimPort =
      .ok (derivedOf "/docs/ports" vimNode ++ passThrough vimNode ++ vimPort) ∧
    objGet? (passThrough vimNode) "name" = some (JsValue.str "nord-vim") :=
  ⟨rfl, rfl⟩

/-- C4 (amended): the pass-through set removes exactly the three
destructured fields (`releases`, `stargazers`, `url`) and keeps every other
field unchanged — in particular the identifying field is retained there; it
is the final overlay that replaces it with the static record's binding
whenever the static record carries the field. -/
theorem passThrough_exact :
    (∀ (n : Obj) (k : String), objGet? (passThrough n) k =
      if k = "releases" ∨ k = "stargazers" ∨ k = "url" then none else objGet? n k) ∧
    (∀ (routePorts : String) (n port : Obj) (idP : String) (v : JsValue),
      objGet? port idP = some v →
      objGet? (mergedRecord routePorts n port) idP = some v) := by
  refine ⟨objGet?_passThrough, fun routePorts n port idP v hv => ?_⟩
  rw [mergedRecord_get, hv]
  rfl

theorem passThrough_exact_witness :
    objGet? (passThrough vimNode) "id" =
      (if ("id" = "releases" ∨ "id" = "stargazers" ∨ "id" = "url") then none
        else objGet? vimNode "id") ∧
    objGet? (mergedRecord "/docs/ports" vimNode vimPort) "name" =
      some (JsValue.str "nord-vim") :=
  ⟨passThrough_exact.1 vimNode "id",
   passThrough_exact.2 "/docs/ports" vimNode vimPort "name" (JsValue.str "nord-vim") rfl⟩

/-- C5 (counterexample): a static record that itself binds `stargazers`
(here to a string) shadows the derived engagement object, so the output
record carries no `stargazers.count` — refuting the guarantee "regardless
of which field names the static records define". -/
theorem merged_missing_stargazers_count_cex :
    wfEdges vimEdges = true ∧
    usePortsMetadata "/docs/ports" "name" vimEdges [shadowPort] =
      .ok [mergedRecord "/docs/ports" vimNode shadowPort] ∧
    objGet? (mergedRecord "/docs/ports" vimNode shadowPort) "stargazers"
      = some (JsValue.str "shadowed") ∧
    hasStargazersCount (mergedRecord "/docs/ports" vimNode shadowPort) = false :=
  ⟨rfl, rfl, rfl, rfl⟩

/-- C5 (amended): with full remote coverage, and provided no static record
itself defines a `stargazers` field, every output record carries
`gitHubRepositoryUrl`, a `stargazers` object with `count` and `url`, a
`url`, and every field of its static record. -/
theorem usePortsMetadata_field_guarantees (routePorts idProperty : String)
    (edges ports : List Obj)
    (hWf : wfEdges edges = true)
    (hcov : ∀ p ∈ ports, ∃ e, edges.find? (matchesPort idProperty p) = some e)
    (hsh : ∀ p ∈ ports, objGet? p "stargazers" = none) :
    ∃ out, usePortsMetadata routePorts idProperty edges ports = .ok out ∧
      List.Forall₂ (fun p m =>
        (objGet? m "gitHubRepositoryUrl").isSome = true ∧
        (∃ so, objGet? m "stargazers" = some (.obj so) ∧
          (objGet? so "count").isSome = true ∧ (objGet? so "url").isSome = true) ∧
        (objGet? m "url").isSome = true ∧
        (∀ k v, objGet? p k = some v → objGet? m k = some v)) ports out := by
  obtain ⟨m, -, h2, hfa⟩ := usePortsMetadata_ok routePorts idProperty edges ports hWf hcov
    (fun p hp => by rw [hsh p hp]; exact fun h => nomatch h)
  refine ⟨m, h2, forall₂_imp_mem hfa (fun p hp b hb => ?_)⟩
  obtain ⟨e, -, rfl⟩ := hb
  exact mergedRecord_guarantees routePorts (nodeOf e) p (hsh p hp)

theorem usePortsMetadata_field_guarantees_witness :
    ∃ out, usePortsMetadata "/docs/ports" "name" vimEdges [vimPort] = .ok out ∧
      List.Forall₂ (fun p m =>
        (objGet? m "gitHubRepositoryUrl").isSome = true ∧
        (∃ so, objGet? m "stargazers" = some (.obj so) ∧
          (objGet? so "count").isSome = true ∧ (objGet? so "url").isSome = true) ∧
        (objGet? m "url").isSome = true ∧
        (∀ k v, objGet? p k = some v → objGet? m k = some v)) [vimPort] out :=
  usePortsMetadata_field_guarantees "/docs/ports" "name" vimEdges [vimPort] rfl
    (by
      intro p hp
      simp only [List.mem_singleton] at hp
      subst hp
      exact ⟨mkEdge vimNode, rfl⟩)
    (by
      intro p hp
      simp only [List.mem_singleton] at hp
      subst hp
      rfl)

/-- C6 (counterexample): a static record that itself binds `url` overrides
the derived route, so the merged record's `url` field is the static value,
not the route base plus the stripped name — refuting the claim for the
merged record. -/
theorem merged_url_overridden_cex :
    usePortsMetadata "/docs/ports" "name" vimEdges [urlPort] =
      .ok [mergedRecord "/docs/ports" vimNode urlPort] ∧
    objGet? (mergedRecord "/docs/ports" vimNode urlPort) "url" = some (JsValue.str "/custom") ∧
    ("/custom" : String) ≠ "/docs/ports" ++ "/" ++ stripPrefix (nodeNameStr vimNode) :=
  ⟨rfl, rfl, by decide⟩

/-- C6 (amended): provided the static record does not itself bind `url`,
the merged record's `url` field is the route base path, a slash, and the
node's name with a leading `nord-` stripped; the prefix is stripped only at
the start of the string (`nord-vim ↦ vim`, `tmux ↦ tmux`). -/
theorem mergedRecord_url_field (routePorts idProperty : String) (edges : List Obj)
    (port e : Obj) (hWf : wfEdges edges = true)
    (hfind : edges.find? (matchesPort idProperty port) = some e)
    (hport : objGet? port "url" = none) :
    mergePort routePorts idProperty edges port = .ok (mergedRecord routePorts (nodeOf e) port) ∧
    objGet? (mergedRecord routePorts (nodeOf e) port) "url" =
      some (.str (routePorts ++ "/" ++ stripPrefix (nodeNameStr (nodeOf e)))) ∧
    stripPrefix "nord-vim" = "vim" ∧ stripPrefix "tmux" = "tmux" := by
  refine ⟨mergePort_eq_of_find _ _ _ _ _ (List.all_eq_true.mp hWf) hfind, ?_, rfl, rfl⟩
  have hpass : objGet? (passThrough (nodeOf e)) "url" = none := by
    rw [objGet?_passThrough]
    simp
  rw [mergedRecord_get, hport, hpass]
  rfl

theorem mergedRecord_url_field_witness :
    mergePort "/docs/ports" "name" vimEdges vimPort =
      .ok (mergedRecord "/docs/ports" (nodeOf (mkEdge vimNode)) vimPort) ∧
    objGet? (mergedRecord "/docs/ports" (nodeOf (mkEdge vimNode)) vimPort) "url" =
      some (.str ("/docs/ports" ++ "/" ++ stripPrefix (nodeNameStr (nodeOf (mkEdge vimNode))))) :=
  have h := mergedRecord_url_field "/docs/ports" "name" vimEdges vimPort (mkEdge vimNode)
    rfl rfl rfl
  ⟨h.1, h.2.1⟩

/-- C7 (counterexample): a static record that itself binds `releaseLatest`
shadows the derived value, so the merged record's `releaseLatest` is the
static value while the matched node's release list is empty — refuting
"undefined exactly when the release list is empty" for the merged record. -/
theorem merged_releaseLatest_overridden_cex :
    usePortsMetadata "/docs/ports" "name" vimEdges [releasePort] =
      .ok [mergedRecord "/docs/ports" vimNode releasePort] ∧
    releaseEdges vimNode = [] ∧
    objGet? (mergedRecord "/docs/ports" vimNode releasePort) "releaseLatest"
      = some (JsValue.str "fake") ∧
    isUndefOpt (objGet? (mergedRecord "/docs/ports" vimNode releasePort) "releaseLatest")
      = false :=
  ⟨rfl, rfl, rfl, rfl⟩

/-- C7 (amended): provided the static record does not itself bind
`releaseLatest` (and the matched node carries no such field, as the resolved
query shape guarantees), the merged record's `releaseLatest` is `undefined`
exactly when the node's release-edge list is empty, and otherwise is the
first release edge's `node`; an empty release list is not an error (the
merge still succeeds). -/
theorem mergedRecord_releaseLatest (routePorts idProperty : String) (edges : List Obj)
    (port e : Obj) (hWf : wfEdges edges = true)
    (hfind : edges.find? (matchesPort idProperty port) = some e)
    (hport : objGet? port "releaseLatest" = none)
    (hnode : objGet? (nodeOf e) "releaseLatest" = none) :
    mergePort routePorts idProperty edges port = .ok (mergedRecord routePorts (nodeOf e) port) ∧
    (objGet? (mergedRecord routePorts (nodeOf e) port) "releaseLatest" = some JsValue.undef
      ↔ releaseEdges (nodeOf e) = []) ∧
    (∀ eo rest, releaseEdges (nodeOf e) = JsValue.obj eo :: rest →
      objGet? (mergedRecord routePorts (nodeOf e) port) "releaseLatest"
        = some (objGetD eo "node")) := by
  have hWf' := List.all_eq_true.mp hWf
  have h1 := mergePort_eq_of_find routePorts idProperty edges port e hWf' hfind
  have hmem := List.mem_of_find?_eq_some hfind
  obtain ⟨-, hwfn⟩ := wfEdge_parts e (hWf' e hmem)
  unfold wfNode at hwfn
  simp only [Bool.and_eq_true] at hwfn
  obtain ⟨⟨⟨-, hrel⟩, -⟩, -⟩ := hwfn
  obtain ⟨ro, es, hro, hes, hall⟩ := wfReleases_spec hrel
  have hpass : objGet? (passThrough (nodeOf e)) "releaseLatest" = none := by
    rw [objGet?_passThrough]
    simp [hnode]
  have hval : objGet? (mergedRecord routePorts (nodeOf e) port) "releaseLatest"
      = some (nodeReleaseLatest (nodeOf e)) := by
    rw [mergedRecord_get, hport, hpass]
    rfl
  have hredge : releaseEdges (nodeOf e) = es := by
    unfold releaseEdges
    rw [hro, memberD_obj, hes]
  refine ⟨h1, ?_, ?_⟩
  · rw [hval, hredge]
    constructor
    · intro hu
      cases es with
      | nil => rfl
      | cons v rest =>
        exfalso
        have hv := List.all_eq_true.mp hall v (List.mem_cons_self _ _)
        obtain ⟨eo, no, rfl, hno⟩ := wfRelEdge_spec hv
        have hrl : nodeReleaseLatest (nodeOf e) = objGetD eo "node" := by
          unfold nodeReleaseLatest
          rw [hro, memberD_obj, hes]
          rfl
        rw [hrl, hno] at hu
        injection hu with hu2
        exact JsValue.noConfusion hu2
    · intro he0
      subst he0
      have hrl : nodeReleaseLatest (nodeOf e) = JsValue.undef := by
        unfold nodeReleaseLatest
        rw [hro, memberD_obj, hes]
        rfl
      rw [hrl]
  · intro eo rest hcons
    rw [hredge] at hcons
    subst hcons
    have hrl : nodeReleaseLatest (nodeOf e) = objGetD eo "node" := by
      unfold nodeReleaseLatest
      rw [hro, memberD_obj, hes]
      rfl
    rw [hval, hrl]

theorem mergedRecord_releaseLatest_witness :
    mergePort "/docs/ports" "name" relEdges vimPort =
      .ok (mergedRecord "/docs/ports" (nodeOf (mkEdge (mkNodeRel "nord-vim" 3 "v1.0"))) vimPort) ∧
    objGet? (mergedRecord "/docs/ports" (nodeOf (mkEdge (mkNodeRel "nord-vim" 3 "v1.0"))) vimPort)
        "releaseLatest"
      = some (objGetD [("node", JsValue.obj
          [("name", JsValue.str "v1.0"), ("url", JsValue.str "rel/v1.0")])] "node") :=
  have h := mergedRecord_releaseLatest "/docs/ports" "name" relEdges vimPort
    (mkEdge (mkNodeRel "nord-vim" 3 "v1.0")) rfl rfl rfl rfl
  ⟨h.1, h.2.2 [("node", JsValue.obj
      [("name", JsValue.str "v1.0"), ("url", JsValue.str "rel/v1.0")])] [] rfl⟩

/-- C8: the remote record merged with a static record is the first one in
remote order whose `idProperty` field strictly equals the static record's;
any later remote record with the same value is ignored. -/
theorem mergePort_first_match (routePorts idProperty : String)
    (pre post : List Obj) (e port : Obj)
    (hWf : wfEdges (pre ++ e :: post) = true)
    (hpre : ∀ x ∈ pre, matchesPort idProperty port x = false)
    (he : matchesPort idProperty port e = true) :
    (pre ++ e :: post).find? (matchesPort idProperty port) = some e ∧
    mergePort routePorts idProperty (pre ++ e :: post) port =
      .ok (mergedRecord routePorts (nodeOf e) port) := by
  have hfind := find?_first (matchesPort idProperty port) pre e post hpre he
  exact ⟨hfind, mergePort_eq_of_find _ _ _ _ _ (List.all_eq_true.mp hWf) hfind⟩

theorem mergePort_first_match_witness :
    ([mkEdge (mkNode "nord-a" 5)] ++ mkEdge vimNode :: [mkEdge (mkNode "nord-vim" 99)]).find?
      (matchesPort "name" vimPort) = some (mkEdge vimNode) ∧
    mergePort "/docs/ports" "name"
      ([mkEdge (mkNode "nord-a" 5)] ++ mkEdge vimNode :: [mkEdge (mkNode "nord-vim" 99)])
      vimPort = .ok (mergedRecord "/docs/ports" (nodeOf (mkEdge vimNode)) vimPort) :=
  mergePort_first_match "/docs/ports" "name" [mkEdge (mkNode "nord-a" 5)]
    [mkEdge (mkNode "nord-vim" 99)] (mkEdge vimNode) vimPort rfl
    (by
      intro x hx
      simp only [List.mem_singleton] at hx
      subst hx
      rfl)
    rfl

/-- C9 (counterexample): with a non-empty, fully covered static list whose
first record binds `stargazers` to `undefined`, the sort comparator
dereferences `undefined` and the pipeline faults — there is no output
sequence at all, so its length cannot equal the static list's. -/
theorem usePortsMetadata_comparator_fault_cex :
    wfEdges faultEdges = true ∧
    faultPorts.all (fun p => faultEdges.any (matchesPort "name" p)) = true ∧
    faultPorts.isEmpty = false ∧
    usePortsMetadata "/docs/ports" "name" faultEdges faultPorts =
      .error (.undefinedDeref "count") :=
  ⟨rfl, rfl, rfl, rfl⟩

/-- C9 (amended): with full remote coverage, and provided no static record
binds `stargazers` to `undefined` (which would fault the sort comparator),
the pipeline succeeds and the output length equals the static list's. -/
theorem usePortsMetadata_length (routePorts idProperty : String) (edges ports : List Obj)
    (_hne : ports.isEmpty = false)
    (hWf : wfEdges edges = true)
    (hcov : ∀ p ∈ ports, ∃ e, edges.find? (matchesPort idProperty p) = some e)
    (hsg : ∀ p ∈ ports, objGet? p "stargazers" ≠ some JsValue.undef) :
    ∃ out, usePortsMetadata routePorts idProperty edges ports = .ok out ∧
      out.length = ports.length := by
  obtain ⟨m, -, h2, hfa⟩ := usePortsMetadata_ok routePorts idProperty edges ports hWf hcov hsg
  exact ⟨m, h2, hfa.length_eq.symm⟩

theorem usePortsMetadata_length_witness :
    ∃ out, usePortsMetadata "/docs/ports" "name" starEdges starPorts = .ok out ∧
      out.length = starPorts.length :=
  usePortsMetadata_length "/docs/ports" "name" starEdges starPorts
    rfl rfl
    (by
      intro p hp
      simp only [starPorts, List.mem_cons, List.not_mem_nil, or_false] at hp
      rcases hp with rfl | rfl | rfl
      · exact ⟨mkEdge (mkNode "nord-a" 5), rfl⟩
      · exact ⟨mkEdge (mkNode "nord-b" 20), rfl⟩
      · exact ⟨mkEdge (mkNode "nord-c" 10), rfl⟩)
    (by
      intro p hp
      simp only [starPorts, List.mem_cons, List.not_mem_nil, or_false] at hp
      rcases hp with rfl | rfl | rfl <;> exact fun h => nomatch h)

/-- C10: the derived `stargazers` field of the merged record is the object
whose `count` is the matched node's `stargazers.totalCount` and whose `url`
is the node's repository URL with the literal `/stargazers` appended; when
the static record does not shadow it, this object is the merged record's
`stargazers` field. -/
theorem derived_stargazers_spec (routePorts idProperty : String) (edges : List Obj)
    (port e : Obj) (t : Int) (u : String)
    (hWf : wfEdges edges = true)
    (hfind : edges.find? (matchesPort idProperty port) = some e)
    (ht : nodeTotalCount (nodeOf e) = .num t)
    (hu : nodeUrl (nodeOf e) = .str u) :
    mergePort routePorts idProperty edges port = .ok (mergedRecord routePorts (nodeOf e) port) ∧
    derivedStargazers (nodeTotalCount (nodeOf e)) (nodeUrl (nodeOf e)) =
      .obj [("count", .num t), ("url", .str (u ++ "/stargazers"))] ∧
    (objGet? port "stargazers" = none →
      objGet? (mergedRecord routePorts (nodeOf e) port) "stargazers" =
        some (.obj [("count", .num t), ("url", .str (u ++ "/stargazers"))])) := by
  have hds : derivedStargazers (nodeTotalCount (nodeOf e)) (nodeUrl (nodeOf e)) =
      .obj [("count", .num t), ("url", .str (u ++ "/stargazers"))] := by
    unfold derivedStargazers
    rw [ht, hu]
    rfl
  refine ⟨mergePort_eq_of_find _ _ _ _ _ (List.all_eq_true.mp hWf) hfind, hds, fun hsh => ?_⟩
  have hpass : objGet? (passThrough (nodeOf e)) "stargazers" = none := by
    rw [objGet?_passThrough]
    simp
  rw [mergedRecord_get, hsh, hpass]
  simp only [oOr]
  rw [show objGet? (derivedOf routePorts (nodeOf e)) "stargazers"
      = some (derivedStargazers (nodeTotalCount (nodeOf e)) (nodeUrl (nodeOf e))) from rfl, hds]

theorem derived_stargazers_spec_witness :
    mergePort "/docs/ports" "name" vimEdges vimPort =
      .ok (mergedRecord "/docs/ports" (nodeOf (mkEdge vimNode)) vimPort) ∧
    objGet? (mergedRecord "/docs/ports" (nodeOf (mkEdge vimNode)) vimPort) "stargazers" =
      some (.obj [("count", .num 3),
        ("url", .str ("https://github.com/arcticicestudio/nord-vim" ++ "/stargazers"))]) :=
  have h := derived_stargazers_spec "/docs/ports" "name" vimEdges vimPort (mkEdge vimNode)
    3 "https://github.com/arcticicestudio/nord-vim" rfl rfl rfl rfl
  ⟨h.1, h.2.2 rfl⟩
